import Mathlib

/-!
Verification of the tree-algorithm helpers in `ctree/analysis_tree_helpers.py`.

The Python module operates on a tabular tree: one row per node, with columns
`child`, `parent`, `isleaf`, `x`, `y`, `col`.  We embed one row as `Edge` and
the table as `List Edge`, preserving row order.  Numpy float values are
modelled as rationals.  Loops that can fail to terminate on malformed input
are modelled with explicit fuel (`Option` result, where `none` means the loop
has not finished within the given bound).
-/

namespace CTree

/-- One row of the tree table (`child`, `parent`, `isleaf`, `x`, `y`, `col`). -/
structure Edge where
  child : String
  parent : String
  isleaf : Bool
  x : ℚ
  y : ℚ
  col : String
deriving DecidableEq

abbrev Tree := List Edge

/-- The `self.child` column. -/
def childCol (t : Tree) : List String := t.map (·.child)

/-- The `self.parent` column. -/
def parentCol (t : Tree) : List String := t.map (·.parent)

/-- `self.child[self.isleaf]`. -/
def leafChildren (t : Tree) : List String := (t.filter (·.isleaf)).map (·.child)

/-- `self.child[self.parent == node].tolist()` (row order preserved). -/
def childrenOf (t : Tree) (node : String) : List String :=
  (t.filter (fun e => decide (e.parent = node))).map (·.child)

/-- `self.parent[self.child == node]` (row order preserved). -/
def parentsOf (t : Tree) (node : String) : List String :=
  (t.filter (fun e => decide (e.child = node))).map (·.parent)

/-- Number of rows whose `parent` column equals `p`
(one entry of `pd.Series(tree.parent).value_counts()`). -/
def cnt (t : Tree) (p : String) : Nat :=
  (t.filter (fun e => decide (e.parent = p))).length

/-! ### A key-based insertion sort

`np.argsort` followed by fancy indexing reorders a list of labels so that
the key is ascending.  With the default `kind='quicksort'` numpy does *not*
guarantee a stable sort: the relative order of equal keys is unspecified.
`sSortK` below is one admissible tie order (it happens to be stable), used
only to give the file's `get_mergeseq` a concrete value; every statement
about tie order is quantified over all key-ascending permutations instead
of being read off this determinization.
-/

variable {α : Type} {κ : Type} [LinearOrder κ]

/-- Insert `x` after every element whose key is `≤ key x`. -/
def sInsertK (key : α → κ) (x : α) : List α → List α
  | [] => [x]
  | y :: ys => if key y ≤ key x then y :: sInsertK key x ys else x :: y :: ys

/-- Stable insertion sort by `key` (ascending). -/
def sSortK (key : α → κ) (xs : List α) : List α :=
  xs.foldl (fun acc x => sInsertK key x acc) []

/-- Ascending-by-key predicate. -/
def SortedK (key : α → κ) (l : List α) : Prop :=
  l.Pairwise (fun a b => key a ≤ key b)

theorem sInsertK_perm (key : α → κ) (x : α) (l : List α) :
    (sInsertK key x l).Perm (x :: l) := by
  induction l with
  | nil => simp [sInsertK]
  | cons y ys ih =>
    by_cases h : key y ≤ key x
    · simpa [sInsertK, h] using ((ih.cons y).trans (List.Perm.swap x y ys))
    · simp [sInsertK, h]

theorem mem_sInsertK {key : α → κ} {x a : α} {l : List α} :
    a ∈ sInsertK key x l ↔ a = x ∨ a ∈ l := by
  have h : a ∈ sInsertK key x l ↔ a ∈ x :: l := (sInsertK_perm key x l).mem_iff
  simpa using h

theorem length_sInsertK (key : α → κ) (x : α) (l : List α) :
    (sInsertK key x l).length = l.length + 1 :=
  (sInsertK_perm key x l).length_eq

theorem sInsertK_sorted {key : α → κ} {l : List α} (hl : SortedK key l) (x : α) :
    SortedK key (sInsertK key x l) := by
  induction l with
  | nil => simp [sInsertK, SortedK]
  | cons y ys ih =>
    rcases List.pairwise_cons.mp hl with ⟨hy, hys⟩
    unfold SortedK at ih hl ⊢
    by_cases h : key y ≤ key x
    · simp only [sInsertK, if_pos h]
      refine List.pairwise_cons.mpr ⟨?_, ih hys⟩
      intro b hb
      rcases mem_sInsertK.mp hb with rfl | hb
      · exact h
      · exact hy b hb
    · have hxy : key x ≤ key y := le_of_not_le h
      simp only [sInsertK, if_neg h]
      refine List.pairwise_cons.mpr ⟨?_, hl⟩
      intro b hb
      rcases List.mem_cons.mp hb with rfl | hb
      · exact hxy
      · exact hxy.trans (hy b hb)

/-- Auxiliary form of `sSortK` as a fold with explicit accumulator. -/
theorem sSortK_eq_foldl (key : α → κ) (xs : List α) :
    sSortK key xs = xs.foldl (fun acc x => sInsertK key x acc) [] := rfl

theorem foldl_sInsertK_perm (key : α → κ) :
    ∀ (xs acc : List α), (xs.foldl (fun acc x => sInsertK key x acc) acc).Perm (acc ++ xs)
  | [], acc => by simp
  | x :: xs, acc => by
    have ih := foldl_sInsertK_perm key xs (sInsertK key x acc)
    refine ih.trans ?_
    have h3 : (sInsertK key x acc ++ xs).Perm ((x :: acc) ++ xs) :=
      (sInsertK_perm key x acc).append_right xs
    exact h3.trans List.perm_middle.symm

theorem sSortK_perm (key : α → κ) (xs : List α) :
    (sSortK key xs).Perm xs := by
  simpa using foldl_sInsertK_perm key xs []

theorem mem_sSortK {key : α → κ} {xs : List α} {a : α} :
    a ∈ sSortK key xs ↔ a ∈ xs :=
  (sSortK_perm key xs).mem_iff

theorem length_sSortK (key : α → κ) (xs : List α) :
    (sSortK key xs).length = xs.length :=
  (sSortK_perm key xs).length_eq

theorem nodup_sSortK {key : α → κ} {xs : List α} (h : xs.Nodup) :
    (sSortK key xs).Nodup :=
  (sSortK_perm key xs).nodup_iff.mpr h

theorem foldl_sInsertK_sorted (key : α → κ) :
    ∀ (xs acc : List α), SortedK key acc →
      SortedK key (xs.foldl (fun acc x => sInsertK key x acc) acc)
  | [], _, hacc => hacc
  | x :: xs, acc, hacc =>
    foldl_sInsertK_sorted key xs (sInsertK key x acc) (sInsertK_sorted hacc x)

theorem sSortK_sorted (key : α → κ) (xs : List α) :
    SortedK key (sSortK key xs) :=
  foldl_sInsertK_sorted key xs [] (by simp [SortedK])

/-- First occurrences of a list, in order (used below to model the distinct
values of a pandas column in order of first appearance). -/
def dedupFirst : List String → List String
  | [] => []
  | x :: xs => x :: (dedupFirst xs).filter (fun a => decide (a ≠ x))

theorem mem_dedupFirst {xs : List String} {a : String} :
    a ∈ dedupFirst xs ↔ a ∈ xs := by
  induction xs with
  | nil => simp [dedupFirst]
  | cons x xs ih =>
    simp only [dedupFirst, List.mem_cons, List.mem_filter, decide_eq_true_eq, ih]
    constructor
    · rintro (rfl | ⟨h, _⟩)
      · exact Or.inl rfl
      · exact Or.inr h
    · rintro (rfl | h)
      · exact Or.inl rfl
      · by_cases hax : a = x
        · exact Or.inl hax
        · exact Or.inr ⟨h, by simpa using hax⟩

theorem nodup_dedupFirst (xs : List String) : (dedupFirst xs).Nodup := by
  induction xs with
  | nil => simp [dedupFirst]
  | cons x xs ih =>
    refine List.nodup_cons.mpr ⟨?_, ih.filter _⟩
    intro hx
    rcases List.mem_filter.mp hx with ⟨_, hne⟩
    simp at hne

/-- `np.unique` on a string array: sorted distinct values. -/
def uniqueSortedStr (xs : List String) : List String :=
  sSortK (fun s => s) (dedupFirst xs)

theorem mem_uniqueSortedStr {xs : List String} {a : String} :
    a ∈ uniqueSortedStr xs ↔ a ∈ xs := by
  rw [uniqueSortedStr, mem_sSortK, mem_dedupFirst]

theorem nodup_uniqueSortedStr (xs : List String) : (uniqueSortedStr xs).Nodup :=
  nodup_sSortK (nodup_dedupFirst xs)

theorem uniqueSortedStr_nil : uniqueSortedStr [] = [] := rfl

theorem uniqueSortedStr_singleton (x : String) : uniqueSortedStr [x] = [x] := rfl

/-! ### `HTree.get_descendants`

```
descendants = []
current_node = self.child[self.parent == node].tolist()
descendants.extend(current_node)
while current_node:
    parent = current_node.pop(0)
    next_node = self.child[self.parent == parent].tolist()
    current_node.extend(next_node)
    descendants.extend(next_node)
```

The `while` loop carries no visited-set guard, so it is modelled with fuel:
`none` means the worklist is still non-empty after `fuel` iterations. -/

def descAux (t : Tree) : List String → List String → Nat → Option (List String)
  | [], acc, _ => some acc
  | _ :: _, _, 0 => none
  | p :: rest, acc, Nat.succ fuel =>
      descAux t (rest ++ childrenOf t p) (acc ++ childrenOf t p) fuel

def get_descendants (t : Tree) (node : String) (fuel : Nat) : Option (List String) :=
  descAux t (childrenOf t node) (childrenOf t node) fuel

/-! ### `HTree.get_ancestors`

```
ancestors = []
current_node = node
while current_node:
    current_node = self.parent[self.child == current_node]
    ancestors.extend(current_node)
    if current_node.size == 0:
        current_node = None
    if current_node == rootnode:
        current_node = []
return ancestors
```

All parents found at a step (for a well-formed tree, at most one) are
appended to `ancestors` *before* the `rootnode` comparison, and the loop
condition re-evaluates the truthiness of the current singleton array (an
empty-string node is falsy and stops the walk).  The walk is modelled with
fuel; `none` means the loop is still running after `fuel` iterations. -/

def ancAux (t : Tree) (root? : Option String) : String → Nat → Option (List String)
  | _, 0 => none
  | cur, Nat.succ fuel =>
    match parentsOf t cur with
    | [] => some []
    | p :: ps =>
      if some p = root? then some (p :: ps)
      else if p = "" then some (p :: ps)
      else
        match ancAux t root? p fuel with
        | none => none
        | some rest => some (p :: ps ++ rest)

def get_ancestors (t : Tree) (root? : Option String) (node : String) (fuel : Nat) :
    Option (List String) :=
  if node = "" then some [] else ancAux t root? node fuel

/-! ### `HTree.get_mergeseq`

```
ordered_merge_parents = np.setdiff1d(self.parent, self.child[self.isleaf])
y = []
for label in ordered_merge_parents:
    if np.isin(label, self.child):
        y.extend(self.y[self.child == label])
    else:
        y.extend([np.max(self.y) + 0.1])
ind = np.argsort(y)
ordered_merge_parents = ordered_merge_parents[ind].tolist()
ordered_merges = []
while len(ordered_merge_parents) > 1:
    parent = ordered_merge_parents.pop(0)
    children = self.child[self.parent == parent].tolist()
    ordered_merges.append([children, parent])
```

`np.setdiff1d` returns the sorted distinct values of `parent` that are not
leaf names.  For a well-formed tree each label occurs at most once in the
`child` column, so the per-label `y` lookup is the `y` of the first matching
row.  `np.argsort(y)` uses the default `kind='quicksort'`, which numpy
documents as not stable: it only guarantees a permutation of the candidates
that is ascending in merge height, with the order of equal heights
unspecified.  `sortedCandidates` fixes one such permutation (via the stable
`sSortK`) so that `get_mergeseq` is a function; properties of the program
must hold for every admissible permutation, not just this one. -/

def listMaxQ : List ℚ → ℚ
  | [] => 0
  | x :: xs => xs.foldl max x

/-- `np.max(self.y)` (the Python call fails on an empty array; the default
`0` for an empty table is never reached by the claims below). -/
def maxY (t : Tree) : ℚ := listMaxQ (t.map (·.y))

/-- Merge height of a label: its own `y` if it appears as a child, otherwise
the sentinel `np.max(self.y) + 0.1`. -/
def heightOf (t : Tree) (label : String) : ℚ :=
  match t.find? (fun e => decide (e.child = label)) with
  | some e => e.y
  | none => maxY t + 1 / 10

/-- `np.setdiff1d(self.parent, self.child[self.isleaf])`. -/
def mergeCandidates (t : Tree) : List String :=
  (uniqueSortedStr (parentCol t)).filter (fun p => decide (p ∉ leafChildren t))

/-- The candidates in the order produced by `ordered_merge_parents[ind]`
for one admissible `ind = np.argsort(y)` outcome.  This determinizes the
unspecified tie order of the default (non-stable) quicksort; it is *not* a
stability guarantee of the program. -/
def sortedCandidates (t : Tree) : List String :=
  sSortK (heightOf t) (mergeCandidates t)

def mergeLoop (t : Tree) : List String → List (List String × String)
  | [] => []
  | [_] => []
  | p :: rest => (childrenOf t p, p) :: mergeLoop t rest

def get_mergeseq (t : Tree) : List (List String × String) :=
  mergeLoop t (sortedCandidates t)

/-! ### `do_merges`

```
assert isinstance(labels, np.ndarray), "labels must be a numpy array"
for i in range(n_merges):
    if i < len(list_changes):
        c_nodes_list = list_changes[i][0]
        p_node = list_changes[i][1]
        for c_node in c_nodes_list:
            labels[labels == c_node] = p_node
    else:
        break
```

The Python value passed as `labels` can be a numpy array or some other
sequence; the assertion rejects everything but a numpy array before any
relabeling happens.  The dynamic type is modelled by `PyLabels`; the
assertion failure is the `Except.error` branch. -/

inductive PyLabels where
  | ndarray : List String → PyLabels
  | pylist : List String → PyLabels
  | pytuple : List String → PyLabels
deriving DecidableEq

def applyMerge (xs : List String) (cs : List String) (p : String) : List String :=
  cs.foldl (fun acc c => acc.map (fun l => if l = c then p else l)) xs

def applyChanges (xs : List String) (changes : List (List String × String)) :
    List String :=
  changes.foldl (fun acc r => applyMerge acc r.1 r.2) xs

instance {ε γ : Type} [DecidableEq ε] [DecidableEq γ] : DecidableEq (Except ε γ) :=
  fun a b =>
    match a, b with
    | .ok u, .ok v => decidable_of_iff (u = v) (by simp)
    | .error u, .error v => decidable_of_iff (u = v) (by simp)
    | .ok _, .error _ => isFalse (fun h => Except.noConfusion h)
    | .error _, .ok _ => isFalse (fun h => Except.noConfusion h)

def do_merges (labels : PyLabels) (list_changes : List (List String × String))
    (n_merges : Nat) : Except String (List String) :=
  match labels with
  | .ndarray xs => .ok (applyChanges xs (list_changes.take n_merges))
  | _ => .error "labels must be a numpy array"

/-! ### `simplify_tree`

```
simple_tree = deepcopy(pruned_subtree)
if skip_nodes is None:
    X = pd.Series(pruned_subtree.parent).value_counts().to_frame()
    skip_nodes = X.iloc[X[0].values == 1].index.values.tolist()
for node in skip_nodes:
    node_parent = np.unique(simple_tree.parent[simple_tree.child == node])
    node_child = np.unique(simple_tree.child[simple_tree.parent == node])
    if node_parent.size != 0:
        simple_tree.parent[simple_tree.parent == node] = node_parent
        simple_tree_df.drop(rows with child == node or parent == node)
```

`skip_nodes` is the set of parent values occurring exactly once; all selected
values have equal count, so their `value_counts` order is the order of first
appearance in the `parent` column.  The function deep-copies its argument
and mutates only the copy. -/

def skipNodes (t : Tree) : List String :=
  (dedupFirst (parentCol t)).filter (fun p => decide (cnt t p = 1))

def removeNode (t : Tree) (node : String) : Tree :=
  match uniqueSortedStr (parentsOf t node) with
  | [] => t
  | p :: _ =>
    ((t.map (fun e => if e.parent = node then { e with parent := p } else e)).filter
      (fun e => decide (¬ (e.child = node ∨ e.parent = node))))

def simplify_tree (t : Tree) : Tree × List String :=
  ((skipNodes t).foldl removeNode t, skipNodes t)

/-- The source deep-copies `pruned_subtree` (line 394) and mutates only the
copy, so the heap object passed as the argument is left unchanged by the
call; this definition records the argument's state after `simplify_tree`
returns. -/
def simplify_tree_arg_after (t : Tree) : Tree := t

/-! ### `calculate_cophenetic_distance`

```
ancestors_i = subtree.get_ancestors(node=li); ancestors_i.insert(0, li)
ancestors_j = subtree.get_ancestors(node=lj); ancestors_j.insert(0, lj)
found = False
ancestors_i.reverse()
while ancestors_i and (not found):
    this_node = ancestors_i.pop()
    if this_node in ancestors_j:
        found = True
        df_distance.loc[lj, li] = subtree_df.loc[subtree_df["child"] == this_node, "y"].iloc[0]
```

`list.pop()` removes the *last* element, so popping the reversed chain visits
`li`'s self-prefixed ancestor chain in its original leaf-to-root order;
`firstMember` is exactly that scan.  An entry stays at its initial `0.0` if
no common node is found; the `y` lookup takes the first row whose `child`
equals the found node (and fails if there is none, modelled by `none`). -/

def firstMember (ys : List String) : List String → Option String
  | [] => none
  | x :: xs => if x ∈ ys then some x else firstMember ys xs

def lcaNode (t : Tree) (fuel : Nat) (li lj : String) : Option (Option String) :=
  match get_ancestors t none li fuel, get_ancestors t none lj fuel with
  | some ai, some aj => some (firstMember (lj :: aj) (li :: ai))
  | _, _ => none

def copheneticEntry (t : Tree) (fuel : Nat) (li lj : String) : Option ℚ :=
  match lcaNode t fuel li lj with
  | none => none
  | some none => some 0
  | some (some n) =>
    match t.find? (fun e => decide (e.child = n)) with
    | some e => some e.y
    | none => none

/-- The (i, j) entry of the distance matrix returned by
`calculate_cophenetic_distance`, for leaves `li`, `lj`. -/
def calculate_cophenetic_distance (t : Tree) (fuel : Nat) (li lj : String) :
    Option ℚ :=
  copheneticEntry t fuel li lj

/-! ### `calculate_wasserstein_distance`

```
cost_vector = D.flatten()
for i in range(n):  row_constraint[i, :] = 1;  A_eq.append(...); b_eq.append(P[i])
for j in range(n):  col_constraint[:, j] = 1;  A_eq.append(...); b_eq.append(Q[j])
bounds = [(0.0, None) ...]
result = linprog(cost_vector, A_eq=A_eq, b_eq=b_eq, bounds=bounds)
if result.success: return result.x.reshape((n, n)), result.fun
else: return None, None
```

Row-major flattening identifies index `i*n+j` with the pair `(i, j)`; we
index flattened vectors by `Fin n × Fin n` directly.  `scipy.optimize.linprog`
is an external collaborator; it is modelled from the spec: a solver value
whose successful results are feasible minimizers of the stated linear
program (`LinprogSpec`). -/

section Wasserstein

variable (n : Nat)

/-- `D.flatten()`. -/
def costVector (D : Fin n → Fin n → ℚ) : Fin n × Fin n → ℚ :=
  fun k => D k.1 k.2

/-- Row `i` of the row-sum constraints: `row_constraint[i, :] = 1`, flattened. -/
def rowConstraint (i : Fin n) : Fin n × Fin n → ℚ :=
  fun k => if k.1 = i then 1 else 0

/-- Column `j` of the column-sum constraints: `col_constraint[:, j] = 1`. -/
def colConstraint (j : Fin n) : Fin n × Fin n → ℚ :=
  fun k => if k.2 = j then 1 else 0

/-- The equality system `(A_eq, b_eq)` built by the source: the `n` row-sum
rows (rhs `P`) followed by the `n` column-sum rows (rhs `Q`). -/
def eqConstraints (P Q : Fin n → ℚ) : List ((Fin n × Fin n → ℚ) × ℚ) :=
  (List.ofFn (fun i => (rowConstraint n i, P i))) ++
    (List.ofFn (fun j => (colConstraint n j, Q j)))

def dotFlat (c x : Fin n × Fin n → ℚ) : ℚ := ∑ k : Fin n × Fin n, c k * x k

/-- Feasibility for the LP handed to `linprog`: the bounds `(0.0, None)` and
the equality system. -/
def FeasibleLP (constraints : List ((Fin n × Fin n → ℚ) × ℚ))
    (x : Fin n × Fin n → ℚ) : Prop :=
  (∀ k, 0 ≤ x k) ∧ ∀ cb ∈ constraints, dotFlat n cb.1 x = cb.2

structure LinprogResult where
  success : Bool
  x : Fin n × Fin n → ℚ
  cost : ℚ

/-- Modelled from the spec: `scipy.optimize.linprog` is external to this
module; its contract is that any result reported as a success is a feasible
minimizer of the requested linear program and reports the objective value. -/
def LinprogSpec
    (solver : (Fin n × Fin n → ℚ) → List ((Fin n × Fin n → ℚ) × ℚ) →
      LinprogResult n) : Prop :=
  ∀ c constraints,
    (solver c constraints).success = true →
      FeasibleLP n constraints (solver c constraints).x ∧
      (solver c constraints).cost = dotFlat n c (solver c constraints).x ∧
      ∀ x, FeasibleLP n constraints x →
        dotFlat n c (solver c constraints).x ≤ dotFlat n c x

def calculate_wasserstein_distance
    (solver : (Fin n × Fin n → ℚ) → List ((Fin n × Fin n → ℚ) × ℚ) →
      LinprogResult n)
    (P Q : Fin n → ℚ) (D : Fin n → Fin n → ℚ) :
    Option ((Fin n → Fin n → ℚ) × ℚ) :=
  let r := solver (costVector n D) (eqConstraints n P Q)
  if r.success then some (fun i j => r.x (i, j), r.cost) else none

end Wasserstein

/-! ### Concrete trees used in the worked example and the counterexamples -/

/-- The worked example of the spec: root `R` (y = 2) with children `A` and
`B`; `A` (y = 1) with leaf children `a1`, `a2`; leaves at y = 0. -/
def wex : Tree :=
  [ ⟨"a1", "A", true, 0, 0, "#000000"⟩,
    ⟨"a2", "A", true, 1, 0, "#000000"⟩,
    ⟨"B", "R", true, 2, 0, "#000000"⟩,
    ⟨"A", "R", false, 0, 1, "#000000"⟩,
    ⟨"R", "root", false, 1, 2, "#000000"⟩ ]

/-- A malformed edge list whose child/parent edges form a 2-cycle. -/
def cycTree : Tree :=
  [ ⟨"a", "b", false, 0, 0, "#000000"⟩,
    ⟨"b", "a", false, 1, 0, "#000000"⟩ ]

/-- A chain `root → a → b → c` where `b` and `a` are pass-through nodes. -/
def chainTree : Tree :=
  [ ⟨"c", "b", true, 0, 0, "#000000"⟩,
    ⟨"b", "a", false, 0, 1, "#000000"⟩,
    ⟨"a", "root", false, 0, 2, "#000000"⟩ ]

/-! ### C5: `get_descendants` on a cyclic edge list -/

theorem childrenOf_cycTree_a : childrenOf cycTree "a" = ["b"] := rfl

theorem childrenOf_cycTree_b : childrenOf cycTree "b" = ["a"] := rfl

theorem descAux_cyc (fuel : Nat) :
    ∀ acc, descAux cycTree ["a"] acc fuel = none ∧
      descAux cycTree ["b"] acc fuel = none := by
  induction fuel with
  | zero => intro acc; exact ⟨rfl, rfl⟩
  | succ f ih =>
    intro acc
    constructor
    · show descAux cycTree ([] ++ childrenOf cycTree "a")
        (acc ++ childrenOf cycTree "a") f = none
      rw [childrenOf_cycTree_a, List.nil_append]
      exact (ih _).2
    · show descAux cycTree ([] ++ childrenOf cycTree "b")
        (acc ++ childrenOf cycTree "b") f = none
      rw [childrenOf_cycTree_b, List.nil_append]
      exact (ih _).1

/-- C5: on a malformed tree whose child/parent edges form a cycle,
`get_descendants` never finishes: its worklist is still non-empty after any
number of loop iterations (the source has no revisit guard and raises no
`MalformedTreeError`; no such class exists in the module). -/
theorem get_descendants_diverges_on_cycle (fuel : Nat) :
    get_descendants cycTree "a" fuel = none := by
  show descAux cycTree (childrenOf cycTree "a") (childrenOf cycTree "a") fuel = none
  rw [childrenOf_cycTree_a]
  exact (descAux_cyc fuel ["b"]).2

/-! ### C7: `simplify_tree` works on a deep copy, not in place -/

/-- C7 counterexample: on `chainTree` the simplification removes nodes from
the returned tree, yet the argument object is unchanged after the call
(because of the `deepcopy` at the top of `simplify_tree`), so the
`TreeModel` instance passed in is *not* mutated in place. -/
theorem simplify_tree_not_in_place_cex :
    simplify_tree_arg_after chainTree = chainTree ∧
      (simplify_tree chainTree).1 ≠ chainTree :=
  ⟨rfl, by decide⟩

/-- C7 (amended): `simplify_tree` deep-copies the tree it is given and
applies node removal and edge rewriting to the copy; the argument instance
is left unchanged, even when the returned tree differs from it. -/
theorem simplify_tree_copies_argument :
    (∀ t : Tree, simplify_tree_arg_after t = t) ∧
      (simplify_tree chainTree).1 ≠ chainTree :=
  ⟨fun _ => rfl, by decide⟩

/-! ### C8/C9: `get_ancestors` -/

theorem parentsOf_eq_nil_of_not_mem_childCol {t : Tree} {node : String}
    (h : node ∉ childCol t) : parentsOf t node = [] := by
  unfold parentsOf
  have hf : t.filter (fun e => decide (e.child = node)) = [] := by
    refine List.filter_eq_nil_iff.mpr ?_
    intro e he
    simp only [decide_eq_true_eq]
    intro hc
    exact h (hc ▸ List.mem_map_of_mem (·.child) he)
  rw [hf]; rfl

theorem ancAux_succ (t : Tree) (root? : Option String) (cur : String) (f : Nat) :
    ancAux t root? cur (f + 1) =
      match parentsOf t cur with
      | [] => some []
      | p :: ps =>
        if some p = root? then some (p :: ps)
        else if p = "" then some (p :: ps)
        else
          match ancAux t root? p f with
          | none => none
          | some rest => some (p :: ps ++ rest) := rfl

theorem ancAux_succ_nil {t : Tree} {root? : Option String} {cur : String} {f : Nat}
    (hp : parentsOf t cur = []) : ancAux t root? cur (f + 1) = some [] := by
  rw [ancAux_succ, hp]

theorem ancAux_succ_cons {t : Tree} {root? : Option String} {cur : String} {f : Nat}
    {p : String} {ps : List String} (hp : parentsOf t cur = p :: ps) :
    ancAux t root? cur (f + 1) =
      if some p = root? then some (p :: ps)
      else if p = "" then some (p :: ps)
      else
        match ancAux t root? p f with
        | none => none
        | some rest => some (p :: ps ++ rest) := by
  rw [ancAux_succ, hp]

/-- C8 counterexample: requesting the ancestors of a node that is absent
from the tree returns a normal result (the empty list); no exception is
raised (the module defines no `NodeNotFoundError`). -/
theorem get_ancestors_absent_cex : get_ancestors wex none "zzz" 5 = some [] := rfl

/-- C8 (amended): for every tree and every node absent from the `child`
column, `get_ancestors` returns the empty ancestor list rather than failing. -/
theorem get_ancestors_absent_returns_nil (t : Tree) (node : String) (fuel : Nat)
    (habs : node ∉ childCol t) (hfuel : 1 ≤ fuel) :
    get_ancestors t none node fuel = some [] := by
  unfold get_ancestors
  by_cases hn : node = ""
  · rw [if_pos hn]
  · rw [if_neg hn]
    obtain ⟨f, rfl⟩ : ∃ f, fuel = f + 1 := ⟨fuel - 1, by omega⟩
    exact ancAux_succ_nil (parentsOf_eq_nil_of_not_mem_childCol habs)

theorem get_ancestors_absent_returns_nil_witness :
    get_ancestors wex none "zzz" 7 = some [] :=
  get_ancestors_absent_returns_nil wex "zzz" 7 (by decide) (by decide)

theorem length_parentsOf_eq_count (t : Tree) (c : String) :
    (parentsOf t c).length = (childCol t).count c := by
  induction t with
  | nil => rfl
  | cons e t ih =>
    unfold parentsOf childCol at *
    by_cases h : e.child = c <;>
      simp [List.filter_cons, h, List.count_cons, ih]

theorem parentsOf_length_le_one {t : Tree} (hnodup : (childCol t).Nodup)
    (c : String) : (parentsOf t c).length ≤ 1 := by
  rw [length_parentsOf_eq_count]
  exact List.nodup_iff_count_le_one.mp hnodup c

/-- C9 counterexample: walking up from `a1` with `rootnode = "R"` returns
`["A", "R"]` — the supplied `rootnode` *is* included in the returned list
(it is appended before the stopping test fires). -/
theorem get_ancestors_includes_rootnode_cex :
    get_ancestors wex (some "R") "a1" 9 = some ["A", "R"] ∧ "R" ∈ ["A", "R"] :=
  ⟨rfl, by decide⟩

theorem ancAux_rootnode_inclusive (t : Tree) (r : String)
    (hsing : ∀ c, (parentsOf t c).length ≤ 1) :
    ∀ (fuel : Nat) (node : String) (l pre post : List String),
      ancAux t none node fuel = some l → l = pre ++ r :: post → r ∉ pre →
      ancAux t (some r) node fuel = some (pre ++ [r]) := by
  intro fuel
  induction fuel with
  | zero =>
    intro node l pre post h
    exact absurd h (by simp [ancAux])
  | succ f ih =>
    intro node l pre post hfull hsplit hpre
    cases hp : parentsOf t node with
    | nil =>
      rw [ancAux_succ_nil hp] at hfull
      obtain rfl : l = [] := by injection hfull with h; exact h.symm
      exact absurd hsplit (by simp)
    | cons p ps =>
      have hps : ps = [] := by
        have hlen := hsing node
        rw [hp] at hlen
        simpa using hlen
      subst hps
      rw [ancAux_succ_cons hp] at hfull
      rw [if_neg (by simp)] at hfull
      by_cases hpe : p = ""
      · rw [if_pos hpe] at hfull
        obtain rfl : l = [p] := by injection hfull with h; exact h.symm
        match pre, hsplit with
        | [], hsplit =>
          obtain ⟨rfl, rfl⟩ : p = r ∧ post = [] := by
            constructor <;> [skip; skip] <;> injection hsplit with h1 h2 <;>
              first | exact h1 | exact h2.symm
          rw [ancAux_succ_cons hp, if_pos rfl]
          simp
        | a :: pre', hsplit =>
          have := congrArg List.length hsplit
          simp at this
      · rw [if_neg hpe] at hfull
        cases har : ancAux t none p f with
        | none => rw [har] at hfull; exact absurd hfull (by simp)
        | some rest =>
          rw [har] at hfull
          obtain rfl : l = p :: rest := by
            injection hfull with h
            simpa using h.symm
          match pre, hsplit, hpre with
          | [], hsplit, _ =>
            obtain rfl : p = r := by injection hsplit
            rw [ancAux_succ_cons hp, if_pos rfl]
            simp
          | a :: pre', hsplit, hpre =>
            obtain ⟨rfl, hrest⟩ : p = a ∧ rest = pre' ++ r :: post := by
              constructor <;> injection hsplit with h1 h2 <;>
                first | exact h1 | exact h2
            have hrp : r ≠ p := fun h => hpre (by simp [h])
            have hrec := ih p rest pre' post har hrest
              (fun h => hpre (List.mem_cons_of_mem _ h))
            rw [ancAux_succ_cons hp,
              if_neg (by simpa using fun h => hrp h.symm), if_neg hpe, hrec]
            simp

/-- C9 (amended): for a tree whose `child` column has no duplicates, when the
supplied `rootnode` lies on the node's ancestor path, `get_ancestors`
collects each ancestor walking strictly upward and stops immediately *after*
appending `rootnode`: the result is the prefix of the full ancestor chain up
to and including `rootnode` (inclusive, not exclusive). -/
theorem get_ancestors_rootnode_inclusive (t : Tree) (node r : String) (fuel : Nat)
    (l pre post : List String) (hnodup : (childCol t).Nodup)
    (hfull : get_ancestors t none node fuel = some l)
    (hsplit : l = pre ++ r :: post) (hpre : r ∉ pre) :
    get_ancestors t (some r) node fuel = some (pre ++ [r]) := by
  unfold get_ancestors at hfull ⊢
  by_cases hn : node = ""
  · rw [if_pos hn] at hfull
    obtain rfl : l = [] := by injection hfull with h; exact h.symm
    exact absurd hsplit (by simp)
  · rw [if_neg hn] at hfull ⊢
    exact ancAux_rootnode_inclusive t r (parentsOf_length_le_one hnodup)
      fuel node l pre post hfull hsplit hpre

theorem get_ancestors_rootnode_inclusive_witness :
    get_ancestors wex (some "R") "a1" 9 = some (["A"] ++ ["R"]) :=
  get_ancestors_rootnode_inclusive wex "a1" "R" 9 ["A", "R", "root"] ["A"] ["root"]
    (by decide) (by decide) (by decide) (by decide)

/-! ### C10: `do_merges` rejects non-ndarray labels -/

/-- C10: called with anything that is not a numpy array, `do_merges` fails
immediately with the assertion message and performs no relabeling (the error
branch carries no label array, so no partially merged array can be produced
for a rejected input). -/
theorem do_merges_requires_ndarray (labels : PyLabels)
    (h : ∀ xs, labels ≠ PyLabels.ndarray xs)
    (list_changes : List (List String × String)) (n_merges : Nat) :
    do_merges labels list_changes n_merges = .error "labels must be a numpy array" := by
  cases labels with
  | ndarray xs => exact absurd rfl (h xs)
  | pylist xs => rfl
  | pytuple xs => rfl

theorem do_merges_requires_ndarray_witness :
    do_merges (PyLabels.pylist ["a1", "a2", "B"]) [(["a1", "a2"], "A")] 1 =
      .error "labels must be a numpy array" :=
  do_merges_requires_ndarray _ (fun _ h => PyLabels.noConfusion h) _ _

/-! ### C2: `get_mergeseq` -/

theorem find?_child_eq_some_of_mem {t : Tree} {c : String} (h : c ∈ childCol t) :
    ∃ e, t.find? (fun e => decide (e.child = c)) = some e ∧ e.child = c := by
  induction t with
  | nil => simp [childCol] at h
  | cons a t ih =>
    by_cases ha : a.child = c
    · exact ⟨a, by simp [List.find?_cons, ha], ha⟩
    · have h' : c ∈ childCol t := by
        simp only [childCol, List.map_cons, List.mem_cons] at h
        rcases h with h | h
        · exact absurd h.symm ha
        · exact h
      obtain ⟨e, he, hec⟩ := ih h'
      exact ⟨e, by simp [List.find?_cons, ha, he], hec⟩

theorem find?_child_eq_none_of_not_mem {t : Tree} {c : String}
    (h : c ∉ childCol t) : t.find? (fun e => decide (e.child = c)) = none := by
  refine List.find?_eq_none.mpr ?_
  intro e he
  simp only [decide_eq_true_eq]
  intro hc
  exact h (hc ▸ List.mem_map_of_mem (·.child) he)

theorem foldl_max_le_init (l : List ℚ) (b : ℚ) : b ≤ l.foldl max b := by
  induction l generalizing b with
  | nil => exact le_refl b
  | cons x xs ih => exact le_trans (le_max_left b x) (ih (max b x))

theorem mem_le_foldl_max (l : List ℚ) (b : ℚ) : ∀ q ∈ l, q ≤ l.foldl max b := by
  induction l generalizing b with
  | nil => simp
  | cons x xs ih =>
    intro q hq
    rcases List.mem_cons.mp hq with rfl | hq
    · exact le_trans (le_max_right b q) (foldl_max_le_init xs (max b q))
    · exact ih (max b x) q hq

theorem le_listMaxQ (l : List ℚ) : ∀ q ∈ l, q ≤ listMaxQ l := by
  intro q hq
  cases l with
  | nil => simp at hq
  | cons x xs =>
    rcases List.mem_cons.mp hq with rfl | hq
    · exact foldl_max_le_init xs q
    · exact mem_le_foldl_max xs x q hq

theorem heightOf_of_mem_childCol {t : Tree} {c : String} (h : c ∈ childCol t) :
    ∃ e, t.find? (fun e => decide (e.child = c)) = some e ∧ e.child = c ∧
      heightOf t c = e.y := by
  obtain ⟨e, he, hec⟩ := find?_child_eq_some_of_mem h
  exact ⟨e, he, hec, by unfold heightOf; rw [he]⟩

theorem heightOf_of_not_mem_childCol {t : Tree} {c : String}
    (h : c ∉ childCol t) : heightOf t c = maxY t + 1 / 10 := by
  unfold heightOf
  rw [find?_child_eq_none_of_not_mem h]

theorem y_lt_heightOf_of_not_mem {t : Tree} {c : String} (h : c ∉ childCol t) :
    ∀ e ∈ t, e.y < heightOf t c := by
  intro e he
  rw [heightOf_of_not_mem_childCol h]
  have hle : e.y ≤ maxY t := le_listMaxQ _ _ (List.mem_map_of_mem (·.y) he)
  linarith

theorem mergeLoop_eq (t : Tree) :
    ∀ l, mergeLoop t l = l.dropLast.map (fun p => (childrenOf t p, p))
  | [] => rfl
  | [_] => rfl
  | x :: y :: rest => by
    show (childrenOf t x, x) :: mergeLoop t (y :: rest) =
      ((x :: y :: rest).dropLast).map (fun p => (childrenOf t p, p))
    rw [mergeLoop_eq t (y :: rest)]
    rfl

theorem childrenOf_subset_childCol (t : Tree) (p : String) :
    ∀ c ∈ childrenOf t p, c ∈ childCol t := by
  intro c hc
  unfold childrenOf at hc
  obtain ⟨e, he, rfl⟩ := List.mem_map.mp hc
  exact List.mem_map_of_mem (·.child) (List.mem_filter.mp he).1

/-- C2 (code-bug evidence): for *every* permutation of the internal-merge
candidates that is ascending in merge height — the only contract numpy gives
for the default, non-stable `np.argsort` at line 320 — the merge loop emits
exactly `k − 1` records for `k` candidates, the records are that permutation
with its last (highest merge height) element dropped, so they are ordered
ascending by merge height and the final remaining candidate is never merged
away; a candidate's merge height is its own `y` when it appears as a child
and otherwise the sentinel `max(y) + 0.1`, strictly greater than every `y`
in the tree; and every merged child name comes from the `child` column.
The claim's remaining conjunct — ties broken by pre-sort order via a stable
sort — is not guaranteed by the program, which would need
`np.argsort(y, kind='stable')`; the file's `get_mergeseq` is the instance of
the loop at one admissible permutation (`sortedCandidates`). -/
theorem get_mergeseq_height_spec (t : Tree) (perm : List String)
    (hperm : perm.Perm (mergeCandidates t))
    (hsort : SortedK (heightOf t) perm) :
    get_mergeseq t = mergeLoop t (sortedCandidates t)
    ∧ (mergeLoop t perm).length = (mergeCandidates t).length - 1
    ∧ (mergeLoop t perm).map Prod.snd = perm.dropLast
    ∧ (mergeLoop t perm).Pairwise (fun r r2 => heightOf t r.2 ≤ heightOf t r2.2)
    ∧ (∀ c ∈ mergeCandidates t,
        (c ∈ childCol t →
          ∃ e, t.find? (fun e => decide (e.child = c)) = some e ∧
            e.child = c ∧ heightOf t c = e.y)
        ∧ (c ∉ childCol t →
          heightOf t c = maxY t + 1 / 10 ∧ ∀ e ∈ t, e.y < heightOf t c))
    ∧ (∀ r ∈ mergeLoop t perm, ∀ c ∈ r.1, c ∈ childCol t) := by
  have hrec : mergeLoop t perm =
      (perm.dropLast).map (fun p => (childrenOf t p, p)) :=
    mergeLoop_eq t _
  refine ⟨rfl, ?_, ?_, ?_, ?_, ?_⟩
  · rw [hrec, List.length_map, List.length_dropLast, hperm.length_eq]
  · rw [hrec, List.map_map]
    have h : (Prod.snd ∘ fun p => (childrenOf t p, p)) = id := rfl
    rw [h, List.map_id]
  · rw [hrec, List.pairwise_map]
    exact hsort.sublist (List.dropLast_sublist _)
  · intro c _
    constructor
    · intro hc
      exact heightOf_of_mem_childCol hc
    · intro hc
      exact ⟨heightOf_of_not_mem_childCol hc, y_lt_heightOf_of_not_mem hc⟩
  · intro r hr c hc
    rw [hrec] at hr
    obtain ⟨p, _, rfl⟩ := List.mem_map.mp hr
    exact childrenOf_subset_childCol t p c hc

theorem get_mergeseq_height_spec_witness :
    (mergeLoop wex (sortedCandidates wex)).length =
      (mergeCandidates wex).length - 1 :=
  (get_mergeseq_height_spec wex (sortedCandidates wex)
    (sSortK_perm _ _) (sSortK_sorted _ _)).2.1

/-! ### C3: applying the whole merge sequence collapses every listed child -/

theorem applyMerge_eq_map (p : String) :
    ∀ (cs xs : List String),
      applyMerge xs cs p = xs.map (fun l => if l ∈ cs then p else l)
  | [], xs => by simp [applyMerge]
  | c :: cs, xs => by
    show applyMerge (xs.map (fun l => if l = c then p else l)) cs p = _
    rw [applyMerge_eq_map p cs, List.map_map]
    refine List.map_congr_left ?_
    intro l _
    by_cases hlc : l = c
    · subst hlc
      by_cases hp : p ∈ cs <;> simp [hp, Function.comp]
    · by_cases hl : l ∈ cs <;> simp [hlc, hl, Function.comp]

theorem mem_applyMerge {xs cs : List String} {p l : String}
    (h : l ∈ applyMerge xs cs p) : l = p ∨ (l ∈ xs ∧ l ∉ cs) := by
  rw [applyMerge_eq_map] at h
  obtain ⟨a, ha, hal⟩ := List.mem_map.mp h
  by_cases hac : a ∈ cs
  · rw [if_pos hac] at hal
    exact Or.inl hal.symm
  · rw [if_neg hac] at hal
    subst hal
    exact Or.inr ⟨ha, hac⟩

theorem mem_applyChanges {changes : List (List String × String)} :
    ∀ {xs : List String} {l : String}, l ∈ applyChanges xs changes →
      l ∈ xs ∨ l ∈ changes.map Prod.snd := by
  induction changes with
  | nil => exact fun h => Or.inl h
  | cons r rest ih =>
    intro xs l h
    have h' := ih (show l ∈ applyChanges (applyMerge xs r.1 r.2) rest from h)
    rcases h' with h' | h'
    · rcases mem_applyMerge h' with rfl | ⟨hx, _⟩
      · right; simp
      · exact Or.inl hx
    · right
      simpa using Or.inr (by simpa using h')

/-- Separation property of a merge sequence: no record's parent label occurs
among the children of that record or of any earlier record. -/
def SepSeq : List (List String × String) → Prop
  | [] => True
  | r :: rest => r.2 ∉ r.1 ∧ (∀ r' ∈ rest, r'.2 ∉ r.1) ∧ SepSeq rest

theorem applyChanges_collapses :
    ∀ (changes : List (List String × String)) (xs : List String),
      SepSeq changes →
      ∀ l ∈ applyChanges xs changes, ∀ r ∈ changes, l ∉ r.1
  | [], _, _, _, _, r, hr => by simp at hr
  | r0 :: rest, xs, hsep, l, hl, r, hr => by
    obtain ⟨hself, hlater, hrest⟩ := hsep
    have hl' : l ∈ applyChanges (applyMerge xs r0.1 r0.2) rest := hl
    rcases List.mem_cons.mp hr with rfl | hr
    · rcases mem_applyChanges hl' with hx | hp
      · rcases mem_applyMerge hx with rfl | ⟨_, hnc⟩
        · exact hself
        · exact hnc
      · obtain ⟨r', hr', rfl⟩ := List.mem_map.mp hp
        exact hlater r' hr'
    · exact applyChanges_collapses rest (applyMerge xs r0.1 r0.2) hrest l hl' r hr

theorem mem_childrenOf {t : Tree} {p c : String} :
    c ∈ childrenOf t p ↔ ∃ e ∈ t, e.parent = p ∧ e.child = c := by
  unfold childrenOf
  constructor
  · intro h
    obtain ⟨e, he, rfl⟩ := List.mem_map.mp h
    have hm := List.mem_filter.mp he
    exact ⟨e, hm.1, by simpa using hm.2, rfl⟩
  · rintro ⟨e, he, hp, rfl⟩
    exact List.mem_map_of_mem _ (List.mem_filter.mpr ⟨he, by simpa using hp⟩)

theorem mem_mergeCandidates {t : Tree} {c : String} :
    c ∈ mergeCandidates t ↔ c ∈ parentCol t ∧ c ∉ leafChildren t := by
  unfold mergeCandidates
  rw [List.mem_filter, mem_uniqueSortedStr]
  simp

theorem mergeLoop_map_snd (t : Tree) (l : List String) :
    (mergeLoop t l).map Prod.snd = l.dropLast := by
  rw [mergeLoop_eq, List.map_map]
  have h : (Prod.snd ∘ fun p => (childrenOf t p, p)) = id := rfl
  rw [h, List.map_id]

/-- A valid dendrogram: along every edge whose child is itself an
internal-merge candidate, the merge height strictly increases. -/
abbrev StrictMergeHeights (t : Tree) : Prop :=
  ∀ e ∈ t, e.child ∈ parentCol t → e.child ∉ leafChildren t →
    heightOf t e.child < heightOf t e.parent

theorem sepSeq_mergeLoop (t : Tree) (hV : StrictMergeHeights t) :
    ∀ l : List String,
      (∀ q ∈ l, q ∈ parentCol t ∧ q ∉ leafChildren t) →
      l.Pairwise (fun a b => heightOf t a ≤ heightOf t b) →
      SepSeq (mergeLoop t l)
  | [], _, _ => trivial
  | [_], _, _ => trivial
  | p :: q0 :: rest, hmem, hpw => by
    show SepSeq ((childrenOf t p, p) :: mergeLoop t (q0 :: rest))
    obtain ⟨hp1, hpw'⟩ := List.pairwise_cons.mp hpw
    refine ⟨?_, ?_, ?_⟩
    · intro hcp
      obtain ⟨e, he, hep, hec⟩ := mem_childrenOf.mp hcp
      have hcand := hmem p (by simp)
      have hlt := hV e he (by rw [hec]; exact hcand.1) (by rw [hec]; exact hcand.2)
      rw [hec, hep] at hlt
      exact absurd hlt (lt_irrefl _)
    · intro r' hr' hcp
      have hr2 : r'.2 ∈ q0 :: rest := by
        have hmm : r'.2 ∈ (mergeLoop t (q0 :: rest)).map Prod.snd :=
          List.mem_map_of_mem _ hr'
        rw [mergeLoop_map_snd] at hmm
        exact (List.dropLast_sublist _).subset hmm
      obtain ⟨e, he, hep, hec⟩ := mem_childrenOf.mp hcp
      have hcand := hmem r'.2 (List.mem_cons_of_mem _ hr2)
      have hlt := hV e he (by rw [hec]; exact hcand.1) (by rw [hec]; exact hcand.2)
      rw [hec, hep] at hlt
      exact absurd hlt (not_lt.mpr (hp1 r'.2 hr2))
    · exact sepSeq_mergeLoop t hV (q0 :: rest)
        (fun q hq => hmem q (List.mem_cons_of_mem _ hq)) hpw'

theorem sepSeq_get_mergeseq (t : Tree) (hV : StrictMergeHeights t) :
    SepSeq (get_mergeseq t) := by
  refine sepSeq_mergeLoop t hV _ ?_ (sSortK_sorted _ _)
  intro q hq
  exact mem_mergeCandidates.mp (mem_sSortK.mp hq)

/-- C3: for every label array and the merge sequence of a valid dendrogram
(`StrictMergeHeights`), applying all merges with
`do_merges(labels, seq, len(seq))` leaves no entry equal to any name listed
in the children of any record of the sequence. -/
theorem do_merges_fully_collapses (t : Tree) (hV : StrictMergeHeights t)
    (xs ys : List String)
    (hrun : do_merges (PyLabels.ndarray xs) (get_mergeseq t)
      (get_mergeseq t).length = .ok ys) :
    ∀ l ∈ ys, ∀ r ∈ get_mergeseq t, l ∉ r.1 := by
  have hys : ys = applyChanges xs (get_mergeseq t) := by
    have heval : do_merges (PyLabels.ndarray xs) (get_mergeseq t)
        (get_mergeseq t).length =
        .ok (applyChanges xs ((get_mergeseq t).take (get_mergeseq t).length)) := rfl
    rw [List.take_length] at heval
    rw [heval] at hrun
    injection hrun with h
    exact h.symm
  subst hys
  exact fun l hl r hr =>
    applyChanges_collapses _ xs (sepSeq_get_mergeseq t hV) l hl r hr

theorem do_merges_fully_collapses_witness :
    do_merges (PyLabels.ndarray ["a1", "a2", "B"]) (get_mergeseq wex)
      (get_mergeseq wex).length = .ok ["R", "R", "R"] ∧
    "R" ∉ (["a1", "a2"] : List String) ∧ "R" ∉ (["B", "A"] : List String) := by
  have hrun : do_merges (PyLabels.ndarray ["a1", "a2", "B"]) (get_mergeseq wex)
      (get_mergeseq wex).length = .ok ["R", "R", "R"] := by
    with_unfolding_all decide
  refine ⟨hrun, ?_, ?_⟩
  · exact do_merges_fully_collapses wex (by with_unfolding_all decide)
      ["a1", "a2", "B"] ["R", "R", "R"] hrun "R" (by decide)
      (["a1", "a2"], "A") (by with_unfolding_all decide)
  · exact do_merges_fully_collapses wex (by with_unfolding_all decide)
      ["a1", "a2", "B"] ["R", "R", "R"] hrun "R" (by decide)
      (["B", "A"], "R") (by with_unfolding_all decide)

/-! ### C1: cophenetic distance is the height of the lowest common ancestor -/

theorem firstMember_append {ys : List String} :
    ∀ (a : List String) (n : String) (s : List String),
      (∀ x ∈ a, x ∉ ys) → n ∈ ys →
      firstMember ys (a ++ n :: s) = some n
  | [], n, s, _, hn => by simp [firstMember, hn]
  | x :: a, n, s, ha, hn => by
    have hx : x ∉ ys := ha x (by simp)
    show firstMember ys (x :: (a ++ n :: s)) = some n
    simp only [firstMember, if_neg hx]
    exact firstMember_append a n s (fun z hz => ha z (by simp [hz])) hn

theorem lcaNode_eq {t : Tree} {fuel : Nat} {li lj : String} {ai aj : List String}
    (hi : get_ancestors t none li fuel = some ai)
    (hj : get_ancestors t none lj fuel = some aj) :
    lcaNode t fuel li lj = some (firstMember (lj :: aj) (li :: ai)) := by
  unfold lcaNode
  rw [hi, hj]

theorem copheneticEntry_of_lca {t : Tree} {fuel : Nat} {li lj n : String} {e : Edge}
    (h : lcaNode t fuel li lj = some (some n))
    (he : t.find? (fun e => decide (e.child = n)) = some e) :
    copheneticEntry t fuel li lj = some e.y := by
  unfold copheneticEntry
  rw [h]
  show (match t.find? (fun e => decide (e.child = n)) with
    | some e => some e.y
    | none => none) = some e.y
  rw [he]

/-- C1: for every tree, leaves `i`, `j`, and node `n` such that the two
self-prefixed ancestor chains decompose as `a ++ n :: s` and `b ++ n :: s`
with the proper parts `a` and `b` disjoint from the other leaf's chain (so
`n` is the common ancestor closest to both leaves — they share exactly the
tail `n :: s`), the matrix entry at `(i, j)` and the entry at `(j, i)` both
equal the `y` of `n`'s row (the distance matrix is symmetric), and every
common chain member lies in `n :: s` (no common ancestor is closer to the
leaves than `n`); for every leaf whose row has `y = 0`, the diagonal entry
is `0`; on the worked example tree the distance between `a1` and `a2` is
`1`, between `a1` and `B` is `2`, and the whole leaf matrix is symmetric
with zero diagonal. -/
theorem cophenetic_distance_lca (t : Tree) (fuel : Nat) (i j n : String)
    (ai aj a b s : List String) (e : Edge)
    (hi : get_ancestors t none i fuel = some ai)
    (hj : get_ancestors t none j fuel = some aj)
    (hci : i :: ai = a ++ n :: s)
    (hcj : j :: aj = b ++ n :: s)
    (ha : ∀ x ∈ a, x ∉ j :: aj)
    (hb : ∀ x ∈ b, x ∉ i :: ai)
    (he : t.find? (fun e => decide (e.child = n)) = some e) :
    (calculate_cophenetic_distance t fuel i j = some e.y
      ∧ calculate_cophenetic_distance t fuel j i = some e.y
      ∧ (∀ x, x ∈ i :: ai → x ∈ j :: aj → x ∈ n :: s))
    ∧ (∀ (l : String) (al : List String) (el : Edge),
        get_ancestors t none l fuel = some al →
        t.find? (fun e => decide (e.child = l)) = some el → el.y = 0 →
        calculate_cophenetic_distance t fuel l l = some 0)
    ∧ (calculate_cophenetic_distance wex 9 "a1" "a2" = some 1
      ∧ calculate_cophenetic_distance wex 9 "a1" "B" = some 2
      ∧ (∀ li ∈ leafChildren wex, ∀ lj ∈ leafChildren wex,
          calculate_cophenetic_distance wex 9 li lj =
            calculate_cophenetic_distance wex 9 lj li)
      ∧ (∀ li ∈ leafChildren wex,
          calculate_cophenetic_distance wex 9 li li = some 0)) := by
  have hnj : n ∈ j :: aj := by rw [hcj]; exact List.mem_append_right _ (by simp)
  have hni : n ∈ i :: ai := by rw [hci]; exact List.mem_append_right _ (by simp)
  refine ⟨⟨?_, ?_, ?_⟩, ?_, ?_, ?_, ?_, ?_⟩
  · refine copheneticEntry_of_lca ?_ he
    rw [lcaNode_eq hi hj, hci]
    rw [firstMember_append a n s ha hnj]
  · refine copheneticEntry_of_lca ?_ he
    rw [lcaNode_eq hj hi, hcj]
    rw [firstMember_append b n s hb hni]
  · intro x hxi hxj
    rw [hci] at hxi
    rcases List.mem_append.mp hxi with hxa | hxs
    · exact absurd hxj (ha x hxa)
    · exact hxs
  · intro l al el hl hel hy
    have hfm : firstMember (l :: al) (l :: al) = some l := by
      simp [firstMember]
    have hlca : lcaNode t fuel l l = some (some l) := by
      rw [lcaNode_eq hl hl, hfm]
    have := copheneticEntry_of_lca hlca hel
    rw [hy] at this
    exact this
  · decide
  · decide
  · decide
  · decide

theorem cophenetic_distance_lca_witness :
    calculate_cophenetic_distance wex 9 "a1" "B" = some (2 : ℚ) ∧
    calculate_cophenetic_distance wex 9 "B" "a1" = some (2 : ℚ) := by
  have h := cophenetic_distance_lca wex 9 "a1" "B" "R"
    ["A", "R", "root"] ["R", "root"] ["a1", "A"] ["B"] ["root"]
    ⟨"R", "root", false, 1, 2, "#000000"⟩
    rfl rfl rfl rfl (by decide) (by decide) rfl
  exact ⟨h.1.1, h.1.2.1⟩

/-! ### C4: the optimal-transport linear program -/

theorem dotFlat_rowConstraint (n : Nat) (x : Fin n × Fin n → ℚ) (i : Fin n) :
    dotFlat n (rowConstraint n i) x = ∑ jj : Fin n, x (i, jj) := by
  unfold dotFlat rowConstraint
  rw [Fintype.sum_prod_type]
  have hsum : ∀ a : Fin n,
      (∑ b : Fin n, (if a = i then (1 : ℚ) else 0) * x (a, b)) =
        if a = i then ∑ b : Fin n, x (a, b) else 0 := by
    intro a
    by_cases hai : a = i <;> simp [hai]
  rw [Finset.sum_congr rfl (fun a _ => hsum a)]
  simp

theorem dotFlat_colConstraint (n : Nat) (x : Fin n × Fin n → ℚ) (j : Fin n) :
    dotFlat n (colConstraint n j) x = ∑ i : Fin n, x (i, j) := by
  unfold dotFlat colConstraint
  rw [Fintype.sum_prod_type]
  have hsum : ∀ a : Fin n,
      (∑ b : Fin n, (if b = j then (1 : ℚ) else 0) * x (a, b)) =
        x (a, j) := by
    intro a
    have h1 : ∀ b : Fin n,
        (if b = j then (1 : ℚ) else 0) * x (a, b) =
          if b = j then x (a, b) else 0 := by
      intro b
      by_cases hbj : b = j <;> simp [hbj]
    rw [Finset.sum_congr rfl (fun b _ => h1 b)]
    simp
  rw [Finset.sum_congr rfl (fun a _ => hsum a)]

theorem dotFlat_costVector (n : Nat) (D : Fin n → Fin n → ℚ)
    (x : Fin n × Fin n → ℚ) :
    dotFlat n (costVector n D) x = ∑ i : Fin n, ∑ jj : Fin n, D i jj * x (i, jj) := by
  unfold dotFlat costVector
  rw [Fintype.sum_prod_type]

/-- The equality system built by the source encodes exactly the transport
marginal constraints. -/
theorem feasible_iff_plan (n : Nat) (P Q : Fin n → ℚ) (x : Fin n × Fin n → ℚ) :
    FeasibleLP n (eqConstraints n P Q) x ↔
      ((∀ k, 0 ≤ x k) ∧ (∀ i, ∑ jj : Fin n, x (i, jj) = P i) ∧
        (∀ jj, ∑ i : Fin n, x (i, jj) = Q jj)) := by
  unfold FeasibleLP eqConstraints
  constructor
  · rintro ⟨hpos, hcon⟩
    refine ⟨hpos, ?_, ?_⟩
    · intro i
      have h := hcon (rowConstraint n i, P i)
        (List.mem_append_left _ ((List.mem_ofFn _ _).mpr ⟨i, rfl⟩))
      rw [← dotFlat_rowConstraint n x i]
      exact h
    · intro jj
      have h := hcon (colConstraint n jj, Q jj)
        (List.mem_append_right _ ((List.mem_ofFn _ _).mpr ⟨jj, rfl⟩))
      rw [← dotFlat_colConstraint n x jj]
      exact h
  · rintro ⟨hpos, hrow, hcol⟩
    refine ⟨hpos, ?_⟩
    intro cb hcb
    rcases List.mem_append.mp hcb with hcb | hcb
    · obtain ⟨i, hi⟩ := (List.mem_ofFn _ _).mp hcb
      rw [← hi]
      rw [dotFlat_rowConstraint]
      exact hrow i
    · obtain ⟨jj, hj⟩ := (List.mem_ofFn _ _).mp hcb
      rw [← hj]
      rw [dotFlat_colConstraint]
      exact hcol jj

/-- C4: whenever `calculate_wasserstein_distance` succeeds (the LP solver
reports success, its contract being `LinprogSpec`), the returned transport
plan is entrywise non-negative with row sums `P` and column sums `Q`, and
the returned cost is the minimum of `∑ D[i,j]·T[i,j]` over all such plans;
moreover for `Q = P` and any non-negative `D` with zero diagonal the
returned cost is `0`. -/
theorem wasserstein_lp_correct (n : Nat)
    (solver : (Fin n × Fin n → ℚ) → List ((Fin n × Fin n → ℚ) × ℚ) →
      LinprogResult n)
    (hsolver : LinprogSpec n solver) :
    (∀ (P Q : Fin n → ℚ) (D T : Fin n → Fin n → ℚ) (c : ℚ),
      calculate_wasserstein_distance n solver P Q D = some (T, c) →
        (∀ i j, 0 ≤ T i j)
        ∧ (∀ i, ∑ jj : Fin n, T i jj = P i)
        ∧ (∀ jj, ∑ i : Fin n, T i jj = Q jj)
        ∧ c = ∑ i : Fin n, ∑ jj : Fin n, D i jj * T i jj
        ∧ (∀ T' : Fin n → Fin n → ℚ, (∀ i j, 0 ≤ T' i j) →
            (∀ i, ∑ jj : Fin n, T' i jj = P i) →
            (∀ jj, ∑ i : Fin n, T' i jj = Q jj) →
            c ≤ ∑ i : Fin n, ∑ jj : Fin n, D i jj * T' i jj))
    ∧ (∀ (P : Fin n → ℚ) (D T : Fin n → Fin n → ℚ) (c : ℚ),
        (∀ i, 0 ≤ P i) → (∀ i j, 0 ≤ D i j) → (∀ i, D i i = 0) →
        calculate_wasserstein_distance n solver P P D = some (T, c) →
        c = 0) := by
  have hmain : ∀ (P Q : Fin n → ℚ) (D T : Fin n → Fin n → ℚ) (c : ℚ),
      calculate_wasserstein_distance n solver P Q D = some (T, c) →
        (∀ i j, 0 ≤ T i j)
        ∧ (∀ i, ∑ jj : Fin n, T i jj = P i)
        ∧ (∀ jj, ∑ i : Fin n, T i jj = Q jj)
        ∧ c = ∑ i : Fin n, ∑ jj : Fin n, D i jj * T i jj
        ∧ (∀ T' : Fin n → Fin n → ℚ, (∀ i j, 0 ≤ T' i j) →
            (∀ i, ∑ jj : Fin n, T' i jj = P i) →
            (∀ jj, ∑ i : Fin n, T' i jj = Q jj) →
            c ≤ ∑ i : Fin n, ∑ jj : Fin n, D i jj * T' i jj) := by
    intro P Q D T c hres
    simp only [calculate_wasserstein_distance] at hres
    by_cases hs : (solver (costVector n D) (eqConstraints n P Q)).success = true
    · rw [if_pos hs] at hres
      obtain ⟨hfeas, hcost, hmin⟩ := hsolver (costVector n D) (eqConstraints n P Q) hs
      obtain ⟨hTx, hc⟩ : (fun i j => (solver (costVector n D)
          (eqConstraints n P Q)).x (i, j)) = T ∧
          (solver (costVector n D) (eqConstraints n P Q)).cost = c := by
        injection hres with h
        exact ⟨congrArg Prod.fst h, congrArg Prod.snd h⟩
      obtain ⟨hpos, hrow, hcol⟩ := (feasible_iff_plan n P Q _).mp hfeas
      subst hc
      subst hTx
      refine ⟨?_, ?_, ?_, ?_, ?_⟩
      · intro i j
        exact hpos (i, j)
      · intro i
        exact hrow i
      · intro jj
        exact hcol jj
      · rw [hcost, dotFlat_costVector]
      · intro T' hpos' hrow' hcol'
        have hfeas' : FeasibleLP n (eqConstraints n P Q) (fun k => T' k.1 k.2) :=
          (feasible_iff_plan n P Q _).mpr
            ⟨fun k => hpos' k.1 k.2, fun i => hrow' i, fun jj => hcol' jj⟩
        have h := hmin _ hfeas'
        rw [dotFlat_costVector, dotFlat_costVector] at h
        rw [hcost, dotFlat_costVector]
        exact h
    · rw [if_neg hs] at hres
      exact absurd hres (by simp)
  refine ⟨hmain, ?_⟩
  intro P D T c hP hD hdiag hres
  obtain ⟨hpos, hrow, hcol, hc, hmin⟩ := hmain P P D T c hres
  have hub : c ≤ 0 := by
    have h := hmin (fun i j => if i = j then P i else 0)
      (fun i j => by
        by_cases hij : i = j
        · simp [hij, hP j]
        · simp [hij])
      (fun i => by simp)
      (fun jj => by simp)
    calc c ≤ ∑ i : Fin n, ∑ jj : Fin n, D i jj * if i = jj then P i else 0 := h
      _ = 0 := by
        refine Finset.sum_eq_zero ?_
        intro i _
        refine Finset.sum_eq_zero ?_
        intro jj _
        by_cases hij : i = jj
        · subst hij
          simp [hdiag i]
        · simp [hij]
  have hlb : 0 ≤ c := by
    rw [hc]
    refine Finset.sum_nonneg ?_
    intro i _
    refine Finset.sum_nonneg ?_
    intro jj _
    exact mul_nonneg (hD i jj) (hpos i jj)
  exact le_antisymm hub hlb

/-- A one-point instance for the witness: `P = (1)`, `D = (0)`; the solver
succeeds exactly on that LP, returning the unique transport plan. -/
def P1 : Fin 1 → ℚ := fun _ => 1

def D1 : Fin 1 → Fin 1 → ℚ := fun _ _ => 0

def trivSolver : (Fin 1 × Fin 1 → ℚ) → List ((Fin 1 × Fin 1 → ℚ) × ℚ) →
    LinprogResult 1 :=
  fun c constraints =>
    if c = costVector 1 D1 ∧ constraints = eqConstraints 1 P1 P1 then
      { success := true, x := fun _ => 1, cost := 0 }
    else
      { success := false, x := fun _ => 0, cost := 0 }

theorem trivSolver_spec : LinprogSpec 1 trivSolver := by
  intro c constraints hs
  unfold trivSolver at hs ⊢
  by_cases hcond : c = costVector 1 D1 ∧ constraints = eqConstraints 1 P1 P1
  · obtain ⟨rfl, rfl⟩ := hcond
    rw [if_pos ⟨rfl, rfl⟩] at hs ⊢
    refine ⟨?_, ?_, ?_⟩
    · refine (feasible_iff_plan 1 P1 P1 _).mpr ⟨?_, ?_, ?_⟩
      · intro k
        exact zero_le_one
      · intro i
        simp [P1]
      · intro jj
        simp [P1]
    · unfold dotFlat costVector D1
      simp
    · intro x hx
      unfold dotFlat costVector D1
      simp
  · rw [if_neg hcond] at hs
    exact absurd hs (by simp)

theorem trivSolver_eval :
    trivSolver (costVector 1 D1) (eqConstraints 1 P1 P1) =
      { success := true, x := fun _ => 1, cost := 0 } := by
  unfold trivSolver
  rw [if_pos ⟨rfl, rfl⟩]

/-! ### C6: `simplify_tree` is idempotent and preserves the leaf set

The proof tracks two invariants along the fold over `skip_nodes`: the
surviving rows are exactly the original rows whose `child` has not been
processed (with all columns except `parent` unchanged), and the per-label
parent counts are unchanged except that processed labels drop to zero
(removing a pass-through node moves its single parent edge onto its parent,
so no other count moves). -/

/-- All columns of a row except `parent` (node removal rewrites only
`parent` fields). -/
def strip (e : Edge) : String × Bool × ℚ × ℚ × String :=
  (e.child, e.isleaf, e.x, e.y, e.col)

theorem filter_map_comm {β γ : Type} (l : List β) (f : β → γ) (q : γ → Bool) :
    (l.map f).filter q = (l.filter (fun b => q (f b))).map f := by
  induction l with
  | nil => rfl
  | cons b l ih =>
    rw [List.map_cons, List.filter_cons, List.filter_cons]
    by_cases h : q (f b) <;> simp [h, ih]

theorem length_filter_split {β : Type} (l : List β) (c q : β → Bool) :
    (l.filter q).length =
      ((l.filter (fun b => !(c b))).filter q).length +
        ((l.filter c).filter q).length := by
  induction l with
  | nil => rfl
  | cons b l ih =>
    by_cases hc : c b <;> by_cases hq : q b <;>
      simp [List.filter_cons, hc, hq, ih] <;> omega

theorem length_filter_or {β : Type} (l : List β) (q r : β → Bool)
    (h : ∀ b ∈ l, ¬(q b = true ∧ r b = true)) :
    (l.filter (fun b => q b || r b)).length =
      (l.filter q).length + (l.filter r).length := by
  induction l with
  | nil => rfl
  | cons b l ih =>
    have hrec := ih (fun b hb => h b (List.mem_cons_of_mem _ hb))
    by_cases hq : q b
    · have hr : ¬ r b = true := fun hr => h b (by simp) ⟨hq, hr⟩
      simp [List.filter_cons, hq, hr, hrec]
      omega
    · by_cases hr : r b <;> simp [List.filter_cons, hq, hr, hrec] <;> omega

theorem childCol_eq_of_strip {u w : Tree} (h : u.map strip = w.map strip) :
    childCol u = childCol w := by
  unfold childCol
  have hc : ∀ z : Tree, z.map (·.child) = (z.map strip).map (·.1) := by
    intro z
    rw [List.map_map]
    rfl
  rw [hc u, hc w, h]

theorem childCol_filter_notmem (t : Tree) (P : List String) :
    childCol (t.filter (fun e => decide (¬ e.child ∈ P))) =
      (childCol t).filter (fun c => decide (¬ c ∈ P)) := by
  induction t with
  | nil => rfl
  | cons e t ih =>
    unfold childCol at *
    rw [List.filter_cons, List.map_cons, List.filter_cons]
    by_cases h : e.child ∈ P
    · rw [if_neg (by simp [h]), if_neg (by simp [h])]
      exact ih
    · rw [if_pos (by simp [h]), if_pos (by simp [h])]
      rw [List.map_cons, ih]

theorem map_strip_filter_eq {u w : Tree} (h : u.map strip = w.map strip)
    (v : String) :
    (u.filter (fun e => decide (¬ e.child = v))).map strip =
      (w.filter (fun e => decide (¬ e.child = v))).map strip := by
  induction u generalizing w with
  | nil =>
    cases w with
    | nil => rfl
    | cons b w => exact absurd h (by simp)
  | cons a u ih =>
    cases w with
    | nil => exact absurd h (by simp)
    | cons b w =>
      rw [List.map_cons, List.map_cons] at h
      injection h with hab huw
      have hchild : a.child = b.child := congrArg (fun z => z.1) hab
      rw [List.filter_cons, List.filter_cons]
      by_cases hc : a.child = v
      · have hc2 : b.child = v := hchild ▸ hc
        rw [if_neg (by simp [hc]), if_neg (by simp [hc2])]
        exact ih huw
      · have hc2 : ¬ b.child = v := fun hh => hc (hchild.symm ▸ hh)
        rw [if_pos (by simp [hc]), if_pos (by simp [hc2])]
        rw [List.map_cons, List.map_cons, hab, ih huw]

theorem leafcols_eq_of_strip {u w : Tree} (h : u.map strip = w.map strip) :
    (u.filter (·.isleaf)).map (·.child) = (w.filter (·.isleaf)).map (·.child) := by
  induction u generalizing w with
  | nil =>
    cases w with
    | nil => rfl
    | cons b w => exact absurd h (by simp)
  | cons a u ih =>
    cases w with
    | nil => exact absurd h (by simp)
    | cons b w =>
      rw [List.map_cons, List.map_cons] at h
      injection h with hab huw
      have hchild : a.child = b.child := congrArg (fun z => z.1) hab
      have hleaf : a.isleaf = b.isleaf := congrArg (fun z => z.2.1) hab
      rw [List.filter_cons, List.filter_cons]
      by_cases hl : a.isleaf
      · have hl2 : b.isleaf := hleaf ▸ hl
        rw [if_pos hl, if_pos hl2]
        rw [List.map_cons, List.map_cons, hchild, ih huw]
      · have hl2 : ¬ (b.isleaf = true) := fun hh => hl (hleaf.symm ▸ hh)
        rw [if_neg hl, if_neg hl2]
        exact ih huw

theorem filter_child_singleton {u : Tree} {v : String}
    (hnodup : (childCol u).Nodup) (hv : v ∈ childCol u) :
    ∃ e, u.filter (fun e => decide (e.child = v)) = [e] ∧ e ∈ u ∧ e.child = v := by
  induction u with
  | nil => simp [childCol] at hv
  | cons a u ih =>
    unfold childCol at hnodup hv
    rw [List.map_cons] at hnodup hv
    obtain ⟨hna, hnu⟩ := List.nodup_cons.mp hnodup
    by_cases ha : a.child = v
    · subst ha
      have hnone : u.filter (fun e => decide (e.child = a.child)) = [] := by
        refine List.filter_eq_nil_iff.mpr ?_
        intro e he
        simp only [decide_eq_true_eq]
        intro hc
        exact hna (hc ▸ List.mem_map_of_mem (·.child) he)
      refine ⟨a, ?_, by simp, rfl⟩
      rw [List.filter_cons]
      simp [hnone]
    · have hv2 : v ∈ u.map (·.child) := by
        rcases List.mem_cons.mp hv with h | h
        · exact absurd h.symm ha
        · exact h
      obtain ⟨e, he, hmem, hec⟩ := ih hnu hv2
      refine ⟨e, ?_, List.mem_cons_of_mem _ hmem, hec⟩
      rw [List.filter_cons]
      simp [ha, he]

theorem filter_parent_singleton {u : Tree} {v : String} (h : cnt u v = 1) :
    ∃ w, u.filter (fun e => decide (e.parent = v)) = [w] ∧ w ∈ u ∧ w.parent = v := by
  unfold cnt at h
  obtain ⟨w, hw⟩ := List.length_eq_one.mp h
  refine ⟨w, hw, ?_, ?_⟩
  · have : w ∈ u.filter (fun e => decide (e.parent = v)) := by simp [hw]
    exact List.mem_of_mem_filter this
  · have : w ∈ u.filter (fun e => decide (e.parent = v)) := by simp [hw]
    have := List.of_mem_filter this
    simpa using this

/-- Closed form of `removeNode` at a pass-through node: keep the rows whose
`child` is not the removed node and rewire their `parent` fields. -/
theorem removeNode_eq {u : Tree} {v : String} {ev : Edge}
    (hfil : u.filter (fun e => decide (e.child = v)) = [ev])
    (hcntv : cnt u v = 1) :
    removeNode u v =
      (u.filter (fun e => decide (¬ e.child = v))).map
        (fun e => if e.parent = v then { e with parent := ev.parent } else e) := by
  have hpar : parentsOf u v = [ev.parent] := by
    unfold parentsOf
    rw [hfil]
    rfl
  unfold removeNode
  rw [hpar, uniqueSortedStr_singleton]
  show ((u.map (fun e => if e.parent = v then { e with parent := ev.parent } else e)).filter
      (fun e => decide (¬ (e.child = v ∨ e.parent = v)))) = _
  rw [filter_map_comm]
  congr 1
  refine List.filter_congr ?_
  intro e he
  by_cases hep : e.parent = v
  · rw [if_pos hep]
    by_cases hevp : ev.parent = v
    · -- self-loop: the unique parent-`v` row is `ev` itself, whose child is `v`
      obtain ⟨w, hw, hwmem, hwpar⟩ := filter_parent_singleton hcntv
      have hew : e = w := by
        have : e ∈ u.filter (fun e => decide (e.parent = v)) :=
          List.mem_filter.mpr ⟨he, by simp [hep]⟩
        rw [hw] at this
        simpa using this
      have hevw : ev = w := by
        have hev1 : ev ∈ u.filter (fun e => decide (e.child = v)) := by simp [hfil]
        have hevmem : ev ∈ u := List.mem_of_mem_filter hev1
        have : ev ∈ u.filter (fun e => decide (e.parent = v)) :=
          List.mem_filter.mpr ⟨hevmem, by simp [hevp]⟩
        rw [hw] at this
        simpa using this
      have hchild : e.child = v := by
        rw [hew, ← hevw]
        have hev1 : ev ∈ u.filter (fun e => decide (e.child = v)) := by simp [hfil]
        have := List.of_mem_filter hev1
        simpa using this
      simp [hchild, hevp]
    · simp [hevp]
  · rw [if_neg hep]
    simp [hep]

theorem parent_v_row_eq_ev {u : Tree} {v : String} {ev e : Edge}
    (hfil : u.filter (fun e => decide (e.child = v)) = [ev])
    (hcntv : cnt u v = 1)
    (hevp : ev.parent = v) (he : e ∈ u) (hep : e.parent = v) : e = ev := by
  obtain ⟨w, hw, _, _⟩ := filter_parent_singleton hcntv
  have hew : e = w := by
    have hmem2 : e ∈ u.filter (fun e => decide (e.parent = v)) :=
      List.mem_filter.mpr ⟨he, by simp [hep]⟩
    rw [hw] at hmem2
    simpa using hmem2
  have hevw : ev = w := by
    have hev1 : ev ∈ u.filter (fun e => decide (e.child = v)) := by simp [hfil]
    have hevmem : ev ∈ u := List.mem_of_mem_filter hev1
    have hmem2 : ev ∈ u.filter (fun e => decide (e.parent = v)) :=
      List.mem_filter.mpr ⟨hevmem, by simp [hevp]⟩
    rw [hw] at hmem2
    simpa using hmem2
  rw [hew, hevw]

theorem ev_child_eq_v {u : Tree} {v : String} {ev : Edge}
    (hfil : u.filter (fun e => decide (e.child = v)) = [ev]) : ev.child = v := by
  have hev1 : ev ∈ u.filter (fun e => decide (e.child = v)) := by simp [hfil]
  have := List.of_mem_filter hev1
  simpa using this

theorem filter_notchild_bang (u : Tree) (v : String) :
    u.filter (fun e => decide (¬ e.child = v)) =
      u.filter (fun e => !(decide (e.child = v))) :=
  List.filter_congr (fun e _ => by simp)

theorem cnt_removeNode_v {u : Tree} {v : String} {ev : Edge}
    (hfil : u.filter (fun e => decide (e.child = v)) = [ev])
    (hcntv : cnt u v = 1) :
    cnt (removeNode u v) v = 0 := by
  rw [removeNode_eq hfil hcntv]
  unfold cnt
  rw [filter_map_comm, List.length_map]
  have hnil : (u.filter (fun e => decide (¬ e.child = v))).filter
      (fun e => decide ((if e.parent = v then { e with parent := ev.parent }
        else e).parent = v)) = [] := by
    refine List.filter_eq_nil_iff.mpr ?_
    intro e he
    obtain ⟨hemem, henotv⟩ := List.mem_filter.mp he
    simp only [decide_eq_true_eq] at henotv ⊢
    intro hrwp
    by_cases hep : e.parent = v
    · rw [if_pos hep] at hrwp
      have hevp : ev.parent = v := hrwp
      have hev : e = ev := parent_v_row_eq_ev hfil hcntv hevp hemem hep
      exact henotv (hev ▸ ev_child_eq_v hfil)
    · rw [if_neg hep] at hrwp
      exact hep hrwp
  rw [hnil]
  rfl

theorem cnt_removeNode_ne {u : Tree} {v p : String} {ev : Edge}
    (hfil : u.filter (fun e => decide (e.child = v)) = [ev])
    (hcntv : cnt u v = 1) (hpv : p ≠ v) :
    cnt (removeNode u v) p = cnt u p := by
  rw [removeNode_eq hfil hcntv]
  unfold cnt
  rw [filter_map_comm, List.length_map]
  have hsplitv := length_filter_split u (fun e => decide (e.child = v))
    (fun e => decide (e.parent = v))
  have hsplitp := length_filter_split u (fun e => decide (e.child = v))
    (fun e => decide (e.parent = p))
  rw [hfil] at hsplitv hsplitp
  rw [← filter_notchild_bang] at hsplitv hsplitp
  by_cases hevp : ev.parent = p
  · have hevnv : ¬ (ev.parent = v) := fun h => hpv ((hevp ▸ h) ▸ rfl)
    have hcong : (u.filter (fun e => decide (¬ e.child = v))).filter
        (fun e => decide ((if e.parent = v then { e with parent := ev.parent }
          else e).parent = p)) =
      (u.filter (fun e => decide (¬ e.child = v))).filter
        (fun e => decide (e.parent = v) || decide (e.parent = p)) := by
      refine List.filter_congr ?_
      intro e _
      by_cases hep : e.parent = v
      · rw [if_pos hep]
        simp [hep, hevp]
      · rw [if_neg hep]
        simp [hep]
    rw [hcong]
    rw [length_filter_or _ _ _ (fun e _ hc => by
      simp only [decide_eq_true_eq] at hc
      exact hpv (by rw [← hc.2, hc.1]))]
    have hvlen : ((u.filter (fun e => decide (¬ e.child = v))).filter
        (fun e => decide (e.parent = v))).length = 1 := by
      have hz : ([ev].filter (fun e => decide (e.parent = v))).length = 0 := by
        simp [hevnv]
      have hcv : (u.filter (fun e => decide (e.parent = v))).length = 1 := hcntv
      omega
    have hplen : ((u.filter (fun e => decide (¬ e.child = v))).filter
        (fun e => decide (e.parent = p))).length + 1 =
        (u.filter (fun e => decide (e.parent = p))).length := by
      have ho : ([ev].filter (fun e => decide (e.parent = p))).length = 1 := by
        simp [hevp]
      omega
    unfold cnt at *
    omega
  · have hcong : (u.filter (fun e => decide (¬ e.child = v))).filter
        (fun e => decide ((if e.parent = v then { e with parent := ev.parent }
          else e).parent = p)) =
      (u.filter (fun e => decide (¬ e.child = v))).filter
        (fun e => decide (e.parent = p)) := by
      refine List.filter_congr ?_
      intro e _
      by_cases hep : e.parent = v
      · rw [if_pos hep]
        have h1 : ¬ (e.parent = p) := fun h => hpv (by rw [← h, hep])
        simp [hevp, h1]
      · rw [if_neg hep]
    rw [hcong]
    have ho : ([ev].filter (fun e => decide (e.parent = p))).length = 0 := by
      simp [hevp]
    unfold cnt at *
    omega

/-- Invariant of the `skip_nodes` fold: processed nodes are removed as rows
(all other columns untouched) and parent counts drop to zero exactly for
processed child labels. -/
def Inv (t : Tree) (processed : List String) (u : Tree) : Prop :=
  u.map strip = (t.filter (fun e => decide (¬ e.child ∈ processed))).map strip
  ∧ ∀ p : String, cnt u p =
      if p ∈ processed ∧ p ∈ childCol t then 0 else cnt t p

theorem inv_base (t : Tree) : Inv t [] t := by
  constructor
  · have h : t.filter (fun e => decide (¬ e.child ∈ ([] : List String))) = t := by
      refine List.filter_eq_self.mpr ?_
      intro e _
      simp
    rw [h]
  · intro p
    simp

theorem mem_append_single_iff {p v : String} {proc : List String} (hpv : p ≠ v) :
    p ∈ proc ++ [v] ↔ p ∈ proc := by
  simp [List.mem_append, hpv]

theorem filter_filter_append (t : Tree) (proc : List String) (v : String) :
    (t.filter (fun e => decide (¬ e.child ∈ proc))).filter
        (fun e => decide (¬ e.child = v)) =
      t.filter (fun e => decide (¬ e.child ∈ proc ++ [v])) := by
  rw [List.filter_filter]
  refine List.filter_congr ?_
  intro e _
  by_cases h1 : e.child ∈ proc <;> by_cases h2 : e.child = v <;>
    simp [h1, h2, List.mem_append]

theorem strip_comp_rw (v p : String) :
    (strip ∘ fun e => if e.parent = v then { e with parent := p } else e) =
      strip := by
  funext e
  by_cases h : e.parent = v <;> simp [Function.comp, strip, h]

theorem inv_step {t : Tree} (hnodup : (childCol t).Nodup)
    {proc : List String} {u : Tree} {v : String}
    (hInv : Inv t proc u) (hv1 : cnt t v = 1) (hvnew : v ∉ proc) :
    Inv t (proc ++ [v]) (removeNode u v) := by
  obtain ⟨hstrip, hcnt⟩ := hInv
  have hcc : childCol u = (childCol t).filter (fun c => decide (¬ c ∈ proc)) := by
    rw [childCol_eq_of_strip hstrip, childCol_filter_notmem]
  have hnodup_u : (childCol u).Nodup := by
    rw [hcc]
    exact hnodup.filter _
  by_cases hvchild : v ∈ childCol t
  · -- main case: the pass-through row of `v` is removed and rewired
    have hvu : v ∈ childCol u := by
      rw [hcc]
      exact List.mem_filter.mpr ⟨hvchild, by simpa using hvnew⟩
    obtain ⟨ev, hfilu, _, _⟩ := filter_child_singleton hnodup_u hvu
    have hcntuv : cnt u v = 1 := by
      rw [hcnt v, if_neg (fun h => hvnew h.1)]
      exact hv1
    constructor
    · rw [removeNode_eq hfilu hcntuv, List.map_map, strip_comp_rw]
      rw [map_strip_filter_eq hstrip v, filter_filter_append]
    · intro p
      by_cases hpv : p = v
      · subst hpv
        rw [cnt_removeNode_v hfilu hcntuv]
        rw [if_pos ⟨List.mem_append_right _ (by simp), hvchild⟩]
      · rw [cnt_removeNode_ne hfilu hcntuv hpv, hcnt p]
        exact if_congr (and_congr_left (fun _ =>
          (mem_append_single_iff hpv).symm)) rfl rfl
  · -- root case: `v` never occurs as a child, so the removal is a no-op
    have hvu : v ∉ childCol u := by
      rw [hcc]
      intro hmem
      exact hvchild (List.mem_of_mem_filter hmem)
    have hrn : removeNode u v = u := by
      unfold removeNode
      rw [parentsOf_eq_nil_of_not_mem_childCol hvu]
      rfl
    rw [hrn]
    constructor
    · rw [hstrip]
      refine congrArg (List.map strip) (List.filter_congr ?_)
      intro e he
      have hne : e.child ≠ v := fun h =>
        hvchild (h ▸ List.mem_map_of_mem (·.child) he)
      by_cases h1 : e.child ∈ proc <;> simp [h1, hne, List.mem_append]
    · intro p
      rw [hcnt p]
      by_cases hpv : p = v
      · subst hpv
        rw [if_neg (fun h => hvchild h.2), if_neg (fun h => hvchild h.2)]
      · exact if_congr (and_congr_left (fun _ =>
          (mem_append_single_iff hpv).symm)) rfl rfl

theorem inv_fold {t : Tree} (hnodup : (childCol t).Nodup) :
    ∀ (S proc : List String) (u : Tree),
      Inv t proc u → S.Nodup → (∀ v ∈ S, v ∉ proc) → (∀ v ∈ S, cnt t v = 1) →
      Inv t (proc ++ S) (S.foldl removeNode u)
  | [], proc, u, hInv, _, _, _ => by simpa using hInv
  | v :: S, proc, u, hInv, hnd, hnew, hcnt1 => by
    obtain ⟨hvS, hnd2⟩ := List.nodup_cons.mp hnd
    have hstep := inv_step hnodup hInv (hcnt1 v (by simp)) (hnew v (by simp))
    have hrec := inv_fold hnodup S (proc ++ [v]) (removeNode u v) hstep hnd2
      (fun w hw => by
        rw [List.mem_append]
        rintro (hwp | hwv)
        · exact hnew w (List.mem_cons_of_mem _ hw) hwp
        · simp only [List.mem_singleton] at hwv
          exact hvS (hwv ▸ hw))
      (fun w hw => hcnt1 w (List.mem_cons_of_mem _ hw))
    have hshow : (v :: S).foldl removeNode u = S.foldl removeNode (removeNode u v) := rfl
    rw [hshow]
    have happ : proc ++ [v] ++ S = proc ++ v :: S := by simp
    rw [happ] at hrec
    exact hrec

theorem removeNode_noop {u : Tree} {p : String}
    (h : parentsOf u p = []) : removeNode u p = u := by
  unfold removeNode
  rw [h]
  rfl

theorem foldl_removeNode_noop {u : Tree} :
    ∀ (S : List String), (∀ p ∈ S, removeNode u p = u) → S.foldl removeNode u = u
  | [], _ => rfl
  | a :: S, h => by
    have ha := h a (by simp)
    show S.foldl removeNode (removeNode u a) = u
    rw [ha]
    exact foldl_removeNode_noop S (fun p hp => h p (List.mem_cons_of_mem _ hp))

theorem skipNodes_nodup (t : Tree) : (skipNodes t).Nodup :=
  (nodup_dedupFirst _).filter _

theorem mem_skipNodes {t : Tree} {p : String} :
    p ∈ skipNodes t ↔ p ∈ parentCol t ∧ cnt t p = 1 := by
  unfold skipNodes
  rw [List.mem_filter, mem_dedupFirst]
  simp

theorem mem_parentCol_of_cnt_pos {t : Tree} {p : String} (h : 0 < cnt t p) :
    p ∈ parentCol t := by
  unfold cnt at h
  have hne : t.filter (fun e => decide (e.parent = p)) ≠ [] := by
    intro hnil
    rw [hnil] at h
    exact absurd h (by simp)
  obtain ⟨e, he⟩ := List.exists_mem_of_ne_nil _ hne
  have hmem := List.mem_of_mem_filter he
  have hpar : e.parent = p := by
    have := List.of_mem_filter he
    simpa using this
  exact hpar ▸ List.mem_map_of_mem (·.parent) hmem

/-- C6: on a tree whose `child` column has no duplicates and whose leaves
have no children, `simplify_tree` is idempotent — running it again on its
own output removes nothing and returns the same edge set — and the
simplified tree's leaf set (leaf-flagged child names, in order) is exactly
that of the input. -/
theorem simplify_tree_idempotent (t : Tree)
    (hnodup : (childCol t).Nodup)
    (hleaf : ∀ e ∈ t, e.isleaf = true → cnt t e.child = 0) :
    (simplify_tree (simplify_tree t).1).1 = (simplify_tree t).1
    ∧ ((simplify_tree t).1.filter (·.isleaf)).map (·.child) =
      (t.filter (·.isleaf)).map (·.child) := by
  have hInv : Inv t (skipNodes t) ((skipNodes t).foldl removeNode t) := by
    have h := inv_fold hnodup (skipNodes t) [] t (inv_base t) (skipNodes_nodup t)
      (fun v _ => by simp) (fun v hv => (mem_skipNodes.mp hv).2)
    simpa using h
  obtain ⟨hstrip1, hcnt1⟩ := hInv
  have ht1 : (simplify_tree t).1 = (skipNodes t).foldl removeNode t := rfl
  have hnoop : ∀ p ∈ skipNodes ((skipNodes t).foldl removeNode t),
      removeNode ((skipNodes t).foldl removeNode t) p =
        (skipNodes t).foldl removeNode t := by
    intro p hp
    obtain ⟨hppar, hpcnt⟩ := mem_skipNodes.mp hp
    have h1 := hcnt1 p
    rw [hpcnt] at h1
    have hcond : ¬ (p ∈ skipNodes t ∧ p ∈ childCol t) := by
      intro hc
      rw [if_pos hc] at h1
      exact one_ne_zero h1
    rw [if_neg hcond] at h1
    have hpt : p ∈ parentCol t := mem_parentCol_of_cnt_pos (by omega)
    have hpS : p ∈ skipNodes t := mem_skipNodes.mpr ⟨hpt, h1.symm⟩
    have hpnc : p ∉ childCol t := fun hc => hcond ⟨hpS, hc⟩
    have hpnc1 : p ∉ childCol ((skipNodes t).foldl removeNode t) := by
      have hcc1 : childCol ((skipNodes t).foldl removeNode t) =
          (childCol t).filter (fun c => decide (¬ c ∈ skipNodes t)) := by
        rw [childCol_eq_of_strip hstrip1, childCol_filter_notmem]
      rw [hcc1]
      intro hmem
      exact hpnc (List.mem_of_mem_filter hmem)
    exact removeNode_noop (parentsOf_eq_nil_of_not_mem_childCol hpnc1)
  constructor
  · show (skipNodes ((skipNodes t).foldl removeNode t)).foldl removeNode
      ((skipNodes t).foldl removeNode t) = (skipNodes t).foldl removeNode t
    exact foldl_removeNode_noop _ hnoop
  · have h1 := leafcols_eq_of_strip hstrip1
    rw [ht1, h1, List.filter_filter]
    refine congrArg (List.map _) (List.filter_congr ?_)
    intro e he
    by_cases hl : e.isleaf
    · have hnc : e.child ∉ skipNodes t := by
        intro hmem
        have hc1 := (mem_skipNodes.mp hmem).2
        rw [hleaf e he hl] at hc1
        exact absurd hc1 (by simp)
      simp [hl, hnc]
    · simp [hl]

theorem simplify_tree_idempotent_witness :
    (simplify_tree (simplify_tree chainTree).1).1 = (simplify_tree chainTree).1
    ∧ ((simplify_tree chainTree).1.filter (·.isleaf)).map (·.child) =
      (chainTree.filter (·.isleaf)).map (·.child) :=
  simplify_tree_idempotent chainTree (by decide) (by decide)

theorem wasserstein_lp_correct_witness :
    (calculate_wasserstein_distance 1 trivSolver P1 P1 D1).map Prod.snd =
      some (0 : ℚ) := by
  have hres : calculate_wasserstein_distance 1 trivSolver P1 P1 D1 =
      some (fun _ _ => (1 : ℚ), 0) := by
    simp only [calculate_wasserstein_distance, trivSolver_eval]
    simp
  have h := (wasserstein_lp_correct 1 trivSolver trivSolver_spec).2 P1 D1
    (fun _ _ => (1 : ℚ)) 0 (fun _ => zero_le_one) (fun _ _ => le_refl 0)
    (fun _ => rfl) hres
  rw [hres]
  rfl

end CTree

